import Mathlib

/-!
# Verification of Klipper's extruder pressure-advance kinematics

A shallow embedding of `klippy/chelper/kin_extruder.c`: the closed-form
segment integrals (`pa_integrate`, `pa_integrate_time`), the per-segment
contribution (`pa_move_integrate`), the windowed cross-segment integrator
(`pa_range_integrate`), the extruder state and its configuration
(`extruder_set_pressure_advance`), and the position callback
(`extruder_calc_position`).

Double-precision values are modelled as exact rationals; the doubly-linked
move list is modelled as the current move together with the list of
temporally preceding moves (most recent first) and the list of following
moves (earliest first).
-/

namespace KinExtruder

/-- The fields of `struct move` (from trapq.h) read by kin_extruder.c:
`move_t` is the segment duration, `start_v` and `half_accel` the quadratic
profile coefficients, `start_pos.x` the direction-aligned start position,
and `axes_r.y` the component overloaded as the pressure-advance flag. -/
structure Move where
  move_t : ℚ
  start_v : ℚ
  half_accel : ℚ
  start_pos_x : ℚ
  axes_r_y : ℚ
  deriving DecidableEq, Repr

/-- Modelled from the spec: `move_get_distance` lives in trapq.c, which is
not part of the given sources; the spec describes the nominal distance as
the quadratic start-velocity/half-acceleration profile, i.e.
`(start_v + half_accel * t) * t`. -/
def move_get_distance (m : Move) (move_time : ℚ) : ℚ :=
  (m.start_v + m.half_accel * move_time) * move_time

/-- `pa_integrate`: definite integral of `pa(t) = delta_base + t * start_dv`
over `[start, e]`, via the closed-form antiderivative. -/
def pa_integrate (delta_base start_dv start e : ℚ) : ℚ :=
  let half_dv := (1/2) * start_dv
  let si := start * (delta_base + start * half_dv)
  let ei := e * (delta_base + e * half_dv)
  ei - si

/-- `pa_integrate_time`: definite integral of
`t * (delta_base + t * start_dv)` over `[start, e]`. -/
def pa_integrate_time (delta_base start_dv start e : ℚ) : ℚ :=
  let half_db := (1/2) * delta_base
  let third_deltav := (1/3) * start_dv
  let si := start * start * (half_db + start * third_deltav)
  let ei := e * e * (half_db + e * third_deltav)
  ei - si

/-- `pa_move_integrate`: clip the interval to the move, drop pressure
advance when the move's flag (`axes_r.y != 0`) is unset, and return the
time-weighted integral minus `time_offset` times the value integral. -/
def pa_move_integrate (m : Move) (pressure_advance start e time_offset : ℚ) : ℚ :=
  let start := max start 0
  let e := min e m.move_t
  let pressure_advance := if m.axes_r_y ≠ 0 then pressure_advance else 0
  let delta_base := pressure_advance * m.start_v
  let start_dv := pressure_advance * 2 * m.half_accel
  let iext := pa_integrate delta_base start_dv start e
  let wgt_ext := pa_integrate_time delta_base start_dv start e
  wgt_ext - time_offset * iext

/-- The backward loop of `pa_range_integrate`: while `start < 0`, step to
the preceding move, shift `start` by its duration, and accumulate its
contribution over `[start, move_t]` with pivot `start`. -/
def pa_back (prevs : List Move) (pressure_advance start : ℚ) : ℚ :=
  match prevs with
  | [] => 0
  | p :: ps =>
    if start < 0 then
      pa_move_integrate p pressure_advance (start + p.move_t) p.move_t (start + p.move_t)
        + pa_back ps pressure_advance (start + p.move_t)
    else 0

/-- The forward loop of `pa_range_integrate`: while `e` exceeds the current
move's duration, step to the following move, shift `e`, and accumulate its
contribution over `[0, e]` with pivot `e` (subtracted by the caller). -/
def pa_fwd (m : Move) (nexts : List Move) (pressure_advance e : ℚ) : ℚ :=
  match nexts with
  | [] => 0
  | n :: ns =>
    if m.move_t < e then
      pa_move_integrate n pressure_advance 0 (e - m.move_t) (e - m.move_t)
        + pa_fwd n ns pressure_advance (e - m.move_t)
    else 0

/-- Iteration count of the backward loop of `pa_range_integrate`. -/
def paBackCount (prevs : List Move) (start : ℚ) : ℕ :=
  match prevs with
  | [] => 0
  | p :: ps => if start < 0 then paBackCount ps (start + p.move_t) + 1 else 0

/-- Iteration count of the forward loop of `pa_range_integrate`. -/
def paFwdCount (m : Move) (nexts : List Move) (e : ℚ) : ℕ :=
  match nexts with
  | [] => 0
  | n :: ns => if m.move_t < e then paFwdCount n ns (e - m.move_t) + 1 else 0

/-- `pa_range_integrate`: triangular-window integral of the advance over
`[move_time - hst, move_time + hst]`, decomposed as two linear ramps on the
current move plus the backward and forward traversals. -/
def pa_range_integrate (prevs : List Move) (m : Move) (nexts : List Move)
    (move_time pressure_advance hst : ℚ) : ℚ :=
  let start := move_time - hst
  let e := move_time + hst
  pa_move_integrate m pressure_advance start move_time start
    - pa_move_integrate m pressure_advance move_time e e
    + pa_back prevs pressure_advance start
    - pa_fwd m nexts pressure_advance e

/-- The fields of `struct extruder_stepper` together with the
`gen_steps_pre_active` / `gen_steps_post_active` margins of the embedded
`stepper_kinematics` that `extruder_set_pressure_advance` writes. -/
structure extruder_stepper where
  pressure_advance : ℚ
  half_smooth_time : ℚ
  inv_half_smooth_time2 : ℚ
  gen_steps_pre_active : ℚ
  gen_steps_post_active : ℚ
  deriving DecidableEq, Repr

/-- `extruder_set_pressure_advance`: store `half_smooth_time = smooth_time/2`
and both activity margins; when the half smooth time is zero return early,
otherwise store the normalization and the pressure advance. -/
def extruder_set_pressure_advance (es : extruder_stepper)
    (pressure_advance smooth_time : ℚ) : extruder_stepper :=
  let hst := smooth_time * (1/2)
  let es := { es with half_smooth_time := hst,
                      gen_steps_pre_active := hst,
                      gen_steps_post_active := hst }
  if hst = 0 then es
  else { es with inv_half_smooth_time2 := 1 / (hst * hst),
                 pressure_advance := pressure_advance }

/-- `extruder_calc_position`: the nominal position, plus — when smoothing is
enabled — the windowed integral scaled by the stored normalization. -/
def extruder_calc_position (es : extruder_stepper)
    (prevs : List Move) (m : Move) (nexts : List Move) (move_time : ℚ) : ℚ :=
  let base := m.start_pos_x + move_get_distance m move_time
  let hst := es.half_smooth_time
  if hst = 0 then base
  else
    base + pa_range_integrate prevs m nexts move_time es.pressure_advance hst
             * es.inv_half_smooth_time2

/-- A concrete extruder state used by witnesses. -/
def esW : extruder_stepper := ⟨7, 9, 11, 13, 15⟩

/-- A concrete move used by witnesses: duration 4, start velocity 2,
half-acceleration 1, start position 5, pressure-advance flag set. -/
def mW : Move := ⟨4, 2, 1, 5, 1⟩

/-- A concrete constant-velocity move used by witnesses. -/
def mC : Move := ⟨4, 2, 0, 5, 1⟩

/-- A concrete move with the pressure-advance flag unset. -/
def mN : Move := ⟨4, 2, 1, 5, 0⟩

/-- A concrete move adjacent after `mW` with continuous position and
matching velocity and flag at the junction. -/
def m2W : Move := ⟨4, 10, 3, 29, 1⟩

/-- The backward loop body never runs when the window start is already
nonnegative. -/
theorem pa_back_of_nonneg (prevs : List Move) (pa s : ℚ) (h : 0 ≤ s) :
    pa_back prevs pa s = 0 := by
  cases prevs <;> simp [pa_back, not_lt.mpr h]

/-- The forward loop body never runs when the window end does not exceed the
current move's duration. -/
theorem pa_fwd_of_le (m : Move) (nexts : List Move) (pa e : ℚ)
    (h : e ≤ m.move_t) : pa_fwd m nexts pa e = 0 := by
  cases nexts <;> simp [pa_fwd, not_lt.mpr h]

/-- A per-move contribution with zero effective pressure advance is zero. -/
theorem pa_move_integrate_eq_zero (m : Move) (pa s e off : ℚ)
    (h : (if m.axes_r_y ≠ 0 then pa else 0) = 0) :
    pa_move_integrate m pa s e off = 0 := by
  simp only [pa_move_integrate, h]
  simp [pa_integrate, pa_integrate_time]

/-- A per-move contribution over a degenerate clipped interval is zero. -/
theorem pa_move_integrate_degenerate (m : Move) (pa s e off : ℚ)
    (h : max s 0 = min e m.move_t) :
    pa_move_integrate m pa s e off = 0 := by
  simp only [pa_move_integrate, h]
  simp [pa_integrate, pa_integrate_time]

/-- A per-move contribution with no clipping and the flag set splits into
the two closed-form integrals. -/
theorem pa_move_integrate_of_interior (m : Move) (pa s e off : ℚ)
    (hs : 0 ≤ s) (he : e ≤ m.move_t) (hflag : m.axes_r_y ≠ 0) :
    pa_move_integrate m pa s e off
      = pa_integrate_time (pa * m.start_v) (pa * 2 * m.half_accel) s e
        - off * pa_integrate (pa * m.start_v) (pa * 2 * m.half_accel) s e := by
  simp only [pa_move_integrate, max_eq_left hs, min_eq_left he, if_pos hflag]

/-- A per-move contribution with zero pressure advance argument is zero. -/
theorem pa_move_integrate_zero_pa (m : Move) (s e off : ℚ) :
    pa_move_integrate m 0 s e off = 0 :=
  pa_move_integrate_eq_zero m 0 s e off (by split <;> rfl)

/-- The backward loop contributes nothing when pressure advance is zero. -/
theorem pa_back_zero_pa (prevs : List Move) (s : ℚ) :
    pa_back prevs 0 s = 0 := by
  induction prevs generalizing s with
  | nil => rfl
  | cons p ps ih =>
    simp [pa_back, pa_move_integrate_zero_pa, ih]

/-- The forward loop contributes nothing when pressure advance is zero. -/
theorem pa_fwd_zero_pa (m : Move) (nexts : List Move) (e : ℚ) :
    pa_fwd m nexts 0 e = 0 := by
  induction nexts generalizing m e with
  | nil => rfl
  | cons n ns ih =>
    simp [pa_fwd, pa_move_integrate_zero_pa, ih]

/-- Configuration always stores `smooth_time / 2` as the half smooth time. -/
theorem set_pressure_advance_hst (es : extruder_stepper) (pa st : ℚ) :
    (extruder_set_pressure_advance es pa st).half_smooth_time = st * (1/2) := by
  simp only [extruder_set_pressure_advance]
  split <;> rfl

/-- With a nonzero half smooth time, configuration stores the pressure
advance argument. -/
theorem set_pressure_advance_pa (es : extruder_stepper) (pa st : ℚ)
    (h : st * (1/2) ≠ 0) :
    (extruder_set_pressure_advance es pa st).pressure_advance = pa := by
  simp only [extruder_set_pressure_advance, if_neg h]

/-- With a nonzero half smooth time, configuration stores the normalization
`1 / hst²`. -/
theorem set_pressure_advance_inv (es : extruder_stepper) (pa st : ℚ)
    (h : st * (1/2) ≠ 0) :
    (extruder_set_pressure_advance es pa st).inv_half_smooth_time2
      = 1 / (st * (1/2) * (st * (1/2))) := by
  simp only [extruder_set_pressure_advance, if_neg h]

/-- After configuring with a nonzero smooth time, the position callback is
the nominal position plus the windowed integral scaled by `1 / hst²`. -/
theorem calc_position_smoothed_raw (es : extruder_stepper) (pa st : ℚ)
    (prevs : List Move) (m : Move) (nexts : List Move) (t : ℚ)
    (h : st * (1/2) ≠ 0) :
    extruder_calc_position (extruder_set_pressure_advance es pa st) prevs m nexts t
      = m.start_pos_x + move_get_distance m t
        + pa_range_integrate prevs m nexts t pa (st * (1/2))
            * (1 / (st * (1/2) * (st * (1/2)))) := by
  simp only [extruder_calc_position, set_pressure_advance_hst, if_neg h,
    set_pressure_advance_pa es pa st h, set_pressure_advance_inv es pa st h]

/-- C2: with a positive smooth time, the position callback returns the
nominal position plus the `pa_range_integrate` window area over
`[t - hst, t + hst]` multiplied by the stored `1 / hst²`. -/
theorem calc_position_smoothed (es : extruder_stepper) (pa st : ℚ)
    (prevs : List Move) (m : Move) (nexts : List Move) (t : ℚ)
    (h : 0 < st) :
    extruder_calc_position (extruder_set_pressure_advance es pa st) prevs m nexts t
      = m.start_pos_x + move_get_distance m t
        + pa_range_integrate prevs m nexts t pa (st / 2)
            * (1 / (st / 2 * (st / 2))) := by
  have h2 : st * (1/2) = st / 2 := by ring
  have hne : st * (1/2) ≠ 0 := by
    rw [h2]
    positivity
  rw [calc_position_smoothed_raw es pa st prevs m nexts t hne, h2]

/-- C2 witness: a concrete smoothed evaluation matches the formula. -/
theorem calc_position_smoothed_witness :
    (0:ℚ) < 2 ∧
    extruder_calc_position (extruder_set_pressure_advance esW 3 2) [] mW [] 1
      = mW.start_pos_x + move_get_distance mW 1
        + pa_range_integrate [] mW [] 1 3 (2 / 2) * (1 / (2 / 2 * (2 / 2))) :=
  ⟨by norm_num, calc_position_smoothed esW 3 2 [] mW [] 1 (by norm_num)⟩

/-- C6: with a positive smooth time but zero pressure advance, the position
callback returns exactly the nominal position: every term of the windowed
integral vanishes because the advance function is identically zero. -/
theorem calc_position_zero_pa (es : extruder_stepper) (st : ℚ)
    (prevs : List Move) (m : Move) (nexts : List Move) (t : ℚ)
    (h : 0 < st) :
    extruder_calc_position (extruder_set_pressure_advance es 0 st) prevs m nexts t
      = m.start_pos_x + move_get_distance m t := by
  rw [calc_position_smoothed es 0 st prevs m nexts t h]
  simp only [pa_range_integrate, pa_move_integrate_zero_pa,
    pa_back_zero_pa, pa_fwd_zero_pa]
  ring

/-- C6 witness: a concrete zero-pressure-advance evaluation is nominal. -/
theorem calc_position_zero_pa_witness :
    (0:ℚ) < 2 ∧
    extruder_calc_position (extruder_set_pressure_advance esW 0 2) [mW] mW [mW] 1
      = mW.start_pos_x + move_get_distance mW 1 :=
  ⟨by norm_num, calc_position_zero_pa esW 2 [mW] mW [mW] 1 (by norm_num)⟩

/-- Unfolding of the backward loop when the window start is negative. -/
theorem pa_back_cons (p : Move) (ps : List Move) (pa s : ℚ) (h : s < 0) :
    pa_back (p :: ps) pa s
      = pa_move_integrate p pa (s + p.move_t) p.move_t (s + p.move_t)
        + pa_back ps pa (s + p.move_t) := by
  simp only [pa_back, if_pos h]

/-- Unfolding of the forward loop when the window end exceeds the current
move's duration. -/
theorem pa_fwd_cons (m n : Move) (ns : List Move) (pa e : ℚ)
    (h : m.move_t < e) :
    pa_fwd m (n :: ns) pa e
      = pa_move_integrate n pa 0 (e - m.move_t) (e - m.move_t)
        + pa_fwd n ns pa (e - m.move_t) := by
  simp only [pa_fwd, if_pos h]

/-- When the smoothing window lies inside the current move, the windowed
integral reduces to the two ramp contributions of that move. -/
theorem calc_position_interior (es : extruder_stepper) (pa st : ℚ)
    (prevs : List Move) (m : Move) (nexts : List Move) (t : ℚ)
    (h : 0 < st) (h1 : st / 2 ≤ t) (h2 : t + st / 2 ≤ m.move_t) :
    extruder_calc_position (extruder_set_pressure_advance es pa st) prevs m nexts t
      = m.start_pos_x + move_get_distance m t
        + (pa_move_integrate m pa (t - st / 2) t (t - st / 2)
             - pa_move_integrate m pa t (t + st / 2) (t + st / 2))
            * (1 / (st / 2 * (st / 2))) := by
  have hh : (0:ℚ) < st / 2 := by positivity
  rw [calc_position_smoothed es pa st prevs m nexts t h]
  simp only [pa_range_integrate]
  rw [pa_back_of_nonneg prevs pa (t - st / 2) (by linarith),
      pa_fwd_of_le m nexts pa (t + st / 2) (by linarith)]
  ring

/-- C5: on a constant-velocity move with the pressure-advance flag set, a
query whose window lies inside the move gets a correction of exactly
`pressure_advance * start_v`, independent of the half smooth time. -/
theorem calc_position_const_velocity (es : extruder_stepper) (pa st : ℚ)
    (prevs : List Move) (m : Move) (nexts : List Move) (t : ℚ)
    (hacc : m.half_accel = 0) (hflag : m.axes_r_y ≠ 0)
    (h : 0 < st) (h1 : st / 2 ≤ t) (h2 : t + st / 2 ≤ m.move_t) :
    extruder_calc_position (extruder_set_pressure_advance es pa st) prevs m nexts t
      = (m.start_pos_x + move_get_distance m t) + pa * m.start_v := by
  have hh : (0:ℚ) < st / 2 := by positivity
  have hne : st / 2 ≠ 0 := ne_of_gt hh
  rw [calc_position_interior es pa st prevs m nexts t h h1 h2,
      pa_move_integrate_of_interior m pa (t - st / 2) t (t - st / 2)
        (by linarith) (by linarith) hflag,
      pa_move_integrate_of_interior m pa t (t + st / 2) (t + st / 2)
        (by linarith) (by linarith) hflag]
  simp only [pa_integrate, pa_integrate_time, hacc]
  field_simp
  ring

/-- C5 witness: the correction on a concrete constant-velocity move is
`3 * 2 = 6` above the nominal position. -/
theorem calc_position_const_velocity_witness :
    mC.half_accel = 0 ∧ mC.axes_r_y ≠ 0 ∧ (0:ℚ) < 2 ∧ (2:ℚ) / 2 ≤ 2 ∧
      (2:ℚ) + 2 / 2 ≤ mC.move_t ∧
    extruder_calc_position (extruder_set_pressure_advance esW 3 2) [] mC [] 2
      = (mC.start_pos_x + move_get_distance mC 2) + 3 * mC.start_v :=
  ⟨rfl, by norm_num [mC], by norm_num, by norm_num, by norm_num [mC],
   calc_position_const_velocity esW 3 2 [] mC [] 2 rfl (by norm_num [mC])
     (by norm_num) (by norm_num) (by norm_num [mC])⟩

/-- C7: a move with the pressure-advance flag unset contributes zero to the
advance integral for every pressure advance, interval and pivot, while its
nominal motion still determines the returned position (shown for a window
inside the move: the position is exactly nominal). -/
theorem flag_unset_excluded (m : Move) (hm : m.axes_r_y = 0) :
    (∀ pa s e off : ℚ, pa_move_integrate m pa s e off = 0) ∧
    (∀ (es : extruder_stepper) (pa st : ℚ) (prevs nexts : List Move) (t : ℚ),
      0 < st → st / 2 ≤ t → t + st / 2 ≤ m.move_t →
      extruder_calc_position (extruder_set_pressure_advance es pa st) prevs m nexts t
        = m.start_pos_x + move_get_distance m t) := by
  have hz : ∀ pa s e off : ℚ, pa_move_integrate m pa s e off = 0 := fun pa s e off =>
    pa_move_integrate_eq_zero m pa s e off (by simp [hm])
  refine ⟨hz, fun es pa st prevs nexts t h h1 h2 => ?_⟩
  rw [calc_position_interior es pa st prevs m nexts t h h1 h2]
  simp only [hz]
  ring

/-- C7 witness: the unset-flag move contributes zero and yields the nominal
position at a concrete interior query. -/
theorem flag_unset_excluded_witness :
    mN.axes_r_y = 0 ∧ pa_move_integrate mN 3 1 2 5 = 0 ∧
    extruder_calc_position (extruder_set_pressure_advance esW 3 2) [] mN [] 2
      = mN.start_pos_x + move_get_distance mN 2 :=
  ⟨rfl, (flag_unset_excluded mN rfl).1 3 1 2 5,
   (flag_unset_excluded mN rfl).2 esW 3 2 [] [] 2 (by norm_num) (by norm_num)
     (by norm_num [mN])⟩

/-- C8: for two adjacent moves with continuous position and matching
velocity and flag at the junction, and a window that spans the boundary but
stays within the two moves, evaluating the position at the junction through
the first move equals evaluating it through the second move. -/
theorem calc_position_boundary (es : extruder_stepper) (pa st : ℚ)
    (prevs : List Move) (m1 m2 : Move) (nexts : List Move)
    (h : 0 < st) (h1 : st / 2 ≤ m1.move_t) (h2 : st / 2 ≤ m2.move_t)
    (hpos : m2.start_pos_x = m1.start_pos_x + move_get_distance m1 m1.move_t)
    (hvel : m2.start_v = m1.start_v + 2 * m1.half_accel * m1.move_t)
    (hflag : m2.axes_r_y = m1.axes_r_y) :
    extruder_calc_position (extruder_set_pressure_advance es pa st)
        prevs m1 (m2 :: nexts) m1.move_t
      = extruder_calc_position (extruder_set_pressure_advance es pa st)
          (m1 :: prevs) m2 nexts 0 := by
  have hh : (0:ℚ) < st / 2 := by positivity
  rw [calc_position_smoothed es pa st prevs m1 (m2 :: nexts) m1.move_t h,
      calc_position_smoothed es pa st (m1 :: prevs) m2 nexts 0 h]
  simp only [pa_range_integrate]
  rw [pa_back_of_nonneg prevs pa (m1.move_t - st / 2) (by linarith),
      pa_fwd_cons m1 m2 nexts pa (m1.move_t + st / 2) (by linarith),
      pa_fwd_of_le m2 nexts pa (m1.move_t + st / 2 - m1.move_t) (by linarith),
      pa_back_cons m1 prevs pa (0 - st / 2) (by linarith),
      pa_back_of_nonneg prevs pa (0 - st / 2 + m1.move_t) (by linarith),
      pa_fwd_of_le m2 nexts pa (0 + st / 2) (by linarith),
      pa_move_integrate_degenerate m1 pa m1.move_t (m1.move_t + st / 2)
        (m1.move_t + st / 2)
        (by rw [max_eq_left (by linarith), min_eq_right (by linarith)]),
      pa_move_integrate_degenerate m2 pa (0 - st / 2) 0 (0 - st / 2)
        (by rw [max_eq_right (by linarith), min_eq_left (by linarith)]),
      show (0:ℚ) - st / 2 + m1.move_t = m1.move_t - st / 2 from by ring,
      show m1.move_t + st / 2 - m1.move_t = 0 + st / 2 from by ring,
      hpos]
  simp only [move_get_distance]
  ring

/-- C8 witness: the two traversals agree at a concrete junction. -/
theorem calc_position_boundary_witness :
    (0:ℚ) < 2 ∧ (2:ℚ) / 2 ≤ mW.move_t ∧ (2:ℚ) / 2 ≤ m2W.move_t ∧
    m2W.start_pos_x = mW.start_pos_x + move_get_distance mW mW.move_t ∧
    m2W.start_v = mW.start_v + 2 * mW.half_accel * mW.move_t ∧
    m2W.axes_r_y = mW.axes_r_y ∧
    extruder_calc_position (extruder_set_pressure_advance esW 3 2)
        [] mW [m2W] mW.move_t
      = extruder_calc_position (extruder_set_pressure_advance esW 3 2)
          [mW] m2W [] 0 :=
  ⟨by norm_num, by norm_num [mW], by norm_num [m2W],
   by norm_num [mW, m2W, move_get_distance],
   by norm_num [mW, m2W], rfl,
   calc_position_boundary esW 3 2 [] mW m2W [] (by norm_num)
     (by norm_num [mW]) (by norm_num [m2W])
     (by norm_num [mW, m2W, move_get_distance]) (by norm_num [mW, m2W]) rfl⟩

/-- The backward loop count is bounded by any prefix length whose cumulative
duration brings the window start up to zero. -/
theorem paBackCount_le (prevs : List Move) (s : ℚ) (kb : ℕ)
    (h : 0 ≤ s + ((prevs.take kb).map Move.move_t).sum) :
    paBackCount prevs s ≤ kb := by
  induction prevs generalizing s kb with
  | nil => simp [paBackCount]
  | cons p ps ih =>
    by_cases hs : s < 0
    · cases kb with
      | zero =>
        simp only [List.take_zero, List.map_nil, List.sum_nil, add_zero] at h
        exact absurd hs (not_lt.mpr h)
      | succ k =>
        have hc : paBackCount (p :: ps) s = paBackCount ps (s + p.move_t) + 1 := by
          simp only [paBackCount, if_pos hs]
        rw [hc]
        refine Nat.succ_le_succ (ih (s + p.move_t) k ?_)
        simp only [List.take_succ_cons, List.map_cons, List.sum_cons] at h
        linarith
    · have hc : paBackCount (p :: ps) s = 0 := by
        simp only [paBackCount, if_neg hs]
      rw [hc]
      exact Nat.zero_le kb

/-- The forward loop count is bounded by any prefix length whose cumulative
duration covers the part of the window beyond the current move. -/
theorem paFwdCount_le (nexts : List Move) (m : Move) (e : ℚ) (kf : ℕ)
    (h : e ≤ m.move_t + ((nexts.take kf).map Move.move_t).sum) :
    paFwdCount m nexts e ≤ kf := by
  induction nexts generalizing m e kf with
  | nil => simp [paFwdCount]
  | cons n ns ih =>
    by_cases he : m.move_t < e
    · cases kf with
      | zero =>
        simp only [List.take_zero, List.map_nil, List.sum_nil, add_zero] at h
        exact absurd he (not_lt.mpr h)
      | succ k =>
        have hc : paFwdCount m (n :: ns) e = paFwdCount n ns (e - m.move_t) + 1 := by
          simp only [paFwdCount, if_pos he]
        rw [hc]
        refine Nat.succ_le_succ (ih n (e - m.move_t) k ?_)
        simp only [List.take_succ_cons, List.map_cons, List.sum_cons] at h
        linarith
    · have hc : paFwdCount m (n :: ns) e = 0 := by
        simp only [paFwdCount, if_neg he]
      rw [hc]
      exact Nat.zero_le kf

/-- The backward accumulation only reads the moves the loop visits. -/
theorem pa_back_take (prevs : List Move) (pa s : ℚ) :
    pa_back (prevs.take (paBackCount prevs s)) pa s = pa_back prevs pa s := by
  induction prevs generalizing s with
  | nil => rfl
  | cons p ps ih =>
    by_cases hs : s < 0
    · have hc : paBackCount (p :: ps) s = paBackCount ps (s + p.move_t) + 1 := by
        simp only [paBackCount, if_pos hs]
      rw [hc, List.take_succ_cons, pa_back_cons p _ pa s hs,
          pa_back_cons p ps pa s hs, ih (s + p.move_t)]
    · have hc : paBackCount (p :: ps) s = 0 := by
        simp only [paBackCount, if_neg hs]
      rw [hc, List.take_zero]
      simp [pa_back, hs]

/-- The forward accumulation only reads the moves the loop visits. -/
theorem pa_fwd_take (nexts : List Move) (m : Move) (pa e : ℚ) :
    pa_fwd m (nexts.take (paFwdCount m nexts e)) pa e = pa_fwd m nexts pa e := by
  induction nexts generalizing m e with
  | nil => rfl
  | cons n ns ih =>
    by_cases he : m.move_t < e
    · have hc : paFwdCount m (n :: ns) e = paFwdCount n ns (e - m.move_t) + 1 := by
        simp only [paFwdCount, if_pos he]
      rw [hc, List.take_succ_cons, pa_fwd_cons m n _ pa e he,
          pa_fwd_cons m n ns pa e he, ih n (e - m.move_t)]
    · have hc : paFwdCount m (n :: ns) e = 0 := by
        simp only [paFwdCount, if_neg he]
      rw [hc, List.take_zero]
      simp [pa_fwd, he]

/-- C9: when finite runs of preceding and following moves cover the two half
windows, the traversal loops of `pa_range_integrate` stop within those runs:
the iteration counts are bounded by the covering prefix lengths, and the
windowed integral only reads the moves those iterations visit. -/
theorem pa_range_integrate_bounded (prevs : List Move) (m : Move)
    (nexts : List Move) (t pa hst : ℚ) (kb kf : ℕ)
    (hb : 0 ≤ (t - hst) + ((prevs.take kb).map Move.move_t).sum)
    (hf : t + hst ≤ m.move_t + ((nexts.take kf).map Move.move_t).sum) :
    paBackCount prevs (t - hst) ≤ kb ∧ paFwdCount m nexts (t + hst) ≤ kf ∧
    pa_range_integrate (prevs.take (paBackCount prevs (t - hst))) m
        (nexts.take (paFwdCount m nexts (t + hst))) t pa hst
      = pa_range_integrate prevs m nexts t pa hst := by
  refine ⟨paBackCount_le prevs (t - hst) kb hb,
          paFwdCount_le nexts m (t + hst) kf hf, ?_⟩
  simp only [pa_range_integrate, pa_back_take, pa_fwd_take]

/-- C9 witness: with one covering move on each side, both loop counts are at
most one and the integral reads only the covering moves. -/
theorem pa_range_integrate_bounded_witness :
    (0:ℚ) ≤ (1 - 3) + (([mW].take 1).map Move.move_t).sum ∧
    ((1:ℚ) + 3 ≤ mW.move_t + (([mW].take 1).map Move.move_t).sum) ∧
    (paBackCount [mW] (1 - 3) ≤ 1 ∧ paFwdCount mW [mW] (1 + 3) ≤ 1 ∧
     pa_range_integrate ([mW].take (paBackCount [mW] (1 - 3))) mW
        ([mW].take (paFwdCount mW [mW] (1 + 3))) 1 3 3
      = pa_range_integrate [mW] mW [mW] 1 3 3) := by
  have hb : (0:ℚ) ≤ (1 - 3) + (([mW].take 1).map Move.move_t).sum := by
    norm_num [mW]
  have hf : (1:ℚ) + 3 ≤ mW.move_t + (([mW].take 1).map Move.move_t).sum := by
    norm_num [mW]
  exact ⟨hb, hf, pa_range_integrate_bounded [mW] mW [mW] 1 3 3 1 1 hb hf⟩

/-- C3: if the configured half smooth time is zero, the position callback
returns exactly the nominal position, whatever the stored pressure advance
and normalization are. -/
theorem calc_position_disabled (es : extruder_stepper)
    (prevs : List Move) (m : Move) (nexts : List Move) (move_time : ℚ)
    (h : es.half_smooth_time = 0) :
    extruder_calc_position es prevs m nexts move_time
      = m.start_pos_x + move_get_distance m move_time := by
  simp [extruder_calc_position, h]

/-- C3 witness: a state with nonzero stored pressure advance and
normalization but zero half smooth time yields the nominal position. -/
theorem calc_position_disabled_witness :
    (⟨7, 0, 11, 13, 15⟩ : extruder_stepper).half_smooth_time = 0 ∧
    extruder_calc_position ⟨7, 0, 11, 13, 15⟩ [] mW [] 3
      = mW.start_pos_x + move_get_distance mW 3 :=
  ⟨rfl, calc_position_disabled ⟨7, 0, 11, 13, 15⟩ [] mW [] 3 rfl⟩

/-- C4 counterexample: configuring with `smooth_time = 0` from a state whose
stored pressure advance is 7 leaves the pressure advance at 7, not 0,
while setting the half smooth time to 0. -/
theorem set_pressure_advance_zero_counterexample :
    (extruder_set_pressure_advance esW 3 0).half_smooth_time = 0 ∧
    (extruder_set_pressure_advance esW 3 0).pressure_advance ≠ 0 := by
  norm_num [extruder_set_pressure_advance, esW]

/-- C4 (amended): configuring with `smooth_time = 0` sets the half smooth
time (and both activity margins) to 0 and leaves the stored pressure
advance field unchanged. -/
theorem set_pressure_advance_zero (es : extruder_stepper) (pa : ℚ) :
    (extruder_set_pressure_advance es pa 0).half_smooth_time = 0 ∧
    (extruder_set_pressure_advance es pa 0).gen_steps_pre_active = 0 ∧
    (extruder_set_pressure_advance es pa 0).gen_steps_post_active = 0 ∧
    (extruder_set_pressure_advance es pa 0).pressure_advance = es.pressure_advance := by
  simp [extruder_set_pressure_advance]

/-- C10: for every nonnegative smooth time, configuration sets both the
pre-active and post-active margins to `smooth_time / 2`. -/
theorem set_pressure_advance_margins (es : extruder_stepper)
    (pa smooth_time : ℚ) (h : 0 ≤ smooth_time) :
    (extruder_set_pressure_advance es pa smooth_time).gen_steps_pre_active
        = smooth_time / 2 ∧
    (extruder_set_pressure_advance es pa smooth_time).gen_steps_post_active
        = smooth_time / 2 := by
  have h1 : (extruder_set_pressure_advance es pa smooth_time).gen_steps_pre_active
      = smooth_time * (1/2) := by
    simp only [extruder_set_pressure_advance]
    split <;> rfl
  have h2 : (extruder_set_pressure_advance es pa smooth_time).gen_steps_post_active
      = smooth_time * (1/2) := by
    simp only [extruder_set_pressure_advance]
    split <;> rfl
  rw [h1, h2]
  exact ⟨by ring, by ring⟩

/-- C10 witness: configuring with smooth time 3 sets both margins to 3/2. -/
theorem set_pressure_advance_margins_witness :
    (0:ℚ) ≤ 3 ∧
    ((extruder_set_pressure_advance esW 2 3).gen_steps_pre_active = 3 / 2 ∧
     (extruder_set_pressure_advance esW 2 3).gen_steps_post_active = 3 / 2) :=
  ⟨by norm_num, set_pressure_advance_margins esW 2 3 (by norm_num)⟩

/-- Closed form of the real definite integral of the linear-ramp-weighted
advance profile `(db + x * sl) * (x - p)`. -/
theorem linear_ramp_integral (db sl p a b : ℝ) :
    (∫ x in a..b, (db + x * sl) * (x - p))
      = (b ^ 2 * (db / 2) + b ^ 3 * (sl / 3) - (db * b + b ^ 2 * (sl / 2)) * p)
        - (a ^ 2 * (db / 2) + a ^ 3 * (sl / 3) - (db * a + a ^ 2 * (sl / 2)) * p) := by
  have hd : ∀ x : ℝ,
      HasDerivAt (fun y : ℝ => y ^ 2 * (db / 2) + y ^ 3 * (sl / 3)
          - (db * y + y ^ 2 * (sl / 2)) * p)
        ((db + x * sl) * (x - p)) x := by
    intro x
    have h1 : HasDerivAt (fun y : ℝ => y ^ 2 * (db / 2)) (2 * x ^ 1 * (db / 2)) x := by
      simpa using (hasDerivAt_pow 2 x).mul_const (db / 2)
    have h2 : HasDerivAt (fun y : ℝ => y ^ 3 * (sl / 3)) (3 * x ^ 2 * (sl / 3)) x := by
      simpa using (hasDerivAt_pow 3 x).mul_const (sl / 3)
    have h3 : HasDerivAt (fun y : ℝ => db * y) (db * 1) x :=
      (hasDerivAt_id x).const_mul db
    have h4 : HasDerivAt (fun y : ℝ => y ^ 2 * (sl / 2)) (2 * x ^ 1 * (sl / 2)) x := by
      simpa using (hasDerivAt_pow 2 x).mul_const (sl / 2)
    have h5 := ((h3.add h4).mul_const p)
    have h6 := (h1.add h2).sub h5
    convert h6 using 1
    ring
  have hi : IntervalIntegrable (fun x : ℝ => (db + x * sl) * (x - p))
      MeasureTheory.volume a b := by
    apply Continuous.intervalIntegrable
    exact (continuous_const.add (continuous_id.mul continuous_const)).mul
      (continuous_id.sub continuous_const)
  rw [intervalIntegral.integral_eq_sub_of_hasDerivAt (fun x _ => hd x) hi]

/-- C1: `pa_move_integrate` clips its interval to `[0, move_t]`, zeroes the
pressure advance when the move's flag is unset, and returns the
time-weighted integral minus the pivot times the value integral — which, as
a real number, equals the definite integral of
`(delta_base + x * start_dv) * (x - pivot)` over the clipped interval, with
`delta_base = pa * start_v` and `start_dv = pa * 2 * half_accel`. -/
theorem pa_move_integrate_spec (m : Move) (pa s e p : ℚ) :
    pa_move_integrate m pa s e p
      = pa_integrate_time ((if m.axes_r_y ≠ 0 then pa else 0) * m.start_v)
          ((if m.axes_r_y ≠ 0 then pa else 0) * 2 * m.half_accel)
          (max s 0) (min e m.move_t)
        - p * pa_integrate ((if m.axes_r_y ≠ 0 then pa else 0) * m.start_v)
            ((if m.axes_r_y ≠ 0 then pa else 0) * 2 * m.half_accel)
            (max s 0) (min e m.move_t)
  ∧ ((pa_move_integrate m pa s e p : ℚ) : ℝ)
      = ∫ x in ((max s 0 : ℚ) : ℝ)..((min e m.move_t : ℚ) : ℝ),
          ((((if m.axes_r_y ≠ 0 then pa else 0) * m.start_v : ℚ) : ℝ)
              + x * (((if m.axes_r_y ≠ 0 then pa else 0) * 2 * m.half_accel : ℚ) : ℝ))
            * (x - ((p : ℚ) : ℝ)) := by
  constructor
  · rfl
  · have h1 : pa_move_integrate m pa s e p
        = pa_integrate_time ((if m.axes_r_y ≠ 0 then pa else 0) * m.start_v)
            ((if m.axes_r_y ≠ 0 then pa else 0) * 2 * m.half_accel)
            (max s 0) (min e m.move_t)
          - p * pa_integrate ((if m.axes_r_y ≠ 0 then pa else 0) * m.start_v)
              ((if m.axes_r_y ≠ 0 then pa else 0) * 2 * m.half_accel)
              (max s 0) (min e m.move_t) := rfl
    rw [h1, linear_ramp_integral]
    simp only [pa_integrate, pa_integrate_time]
    push_cast
    ring

end KinExtruder
